import Mathlib

/-!
Verification of the sine/cosine wave-table generator (heterodyne.py and
giant_switch.py).

The embedding is shallow: Python lists of WaveEntry objects become Lean
lists of a WaveEntry structure, the while loop of binsearch_v2 becomes a
fuel-indexed recursion (the fuel bound is proved sufficient), and the
float arithmetic of the table builders is modelled by exact real
arithmetic with Mathlib arccos and arcsin.  Python integer division
(floor division) agrees with Int division in Lean for the divisor 2,
since Int division here is Euclidean.
-/

namespace SineGen

/-- A wave table entry: t is the (normalized) phase, n the amplitude.
Models the WaveEntry class of heterodyne.py and the (phase, amplitude)
pairs of giant_switch.py.  The phase type is a parameter: the builders
produce real phases, the search works over any linearly ordered phase
type (the self test quantizes phases to integers). -/
structure WaveEntry (α : Type) where
  t : α
  n : ℤ
deriving DecidableEq

variable {α : Type} [LinearOrder α] [Inhabited α]

/-- Python list indexing wave[i] for an integer index: a negative index
within range counts from the end.  Out-of-range accesses (an IndexError
in Python) return a default entry; the safety claim shows they do not
occur in the search under its preconditions. -/
def pyGet (wave : List (WaveEntry α)) (i : ℤ) : WaveEntry α :=
  if i < 0 then wave.getD (i + wave.length).toNat ⟨default, 0⟩
  else wave.getD i.toNat ⟨default, 0⟩

/-- Phase of the entry at a natural-number index (default entry when out
of range). -/
def phD (wave : List (WaveEntry α)) (k : ℕ) : α :=
  (wave.getD k ⟨default, 0⟩).t

/-- Fuel-driven ceiling of log2: clog2F f n computes the least j with
n ≤ 2 to the j, provided n ≤ f + 1. -/
def clog2F : ℕ → ℕ → ℕ
  | 0, _ => 0
  | f + 1, n => if n ≤ 1 then 0 else clog2F f ((n + 1) / 2) + 1

/-- Exact model of int(math.ceil(math.log(l, 2.))) in binsearch_v2: the
least j with l ≤ 2 to the j. -/
def clog2 (n : ℕ) : ℕ := clog2F n n

/-- The while loop of binsearch_v2.  State: remaining fuel, the halving
step d, the candidate index i.  Returns the final index (none when the
fuel runs out before d reaches 0, which the termination theorem rules
out for the fuel used by binsearch_v2) together with the list of all
indices passed to wave[...] during the loop, in evaluation order. -/
def binLoop (wave : List (WaveEntry α)) (t : α) :
    ℕ → ℕ → ℤ → Option ℤ × List ℤ
  | 0, d, i => (if d = 0 then some i else none, [])
  | f + 1, d, i =>
    if d = 0 then (some i, [])
    else
      if i < (wave.length : ℤ) then
        if t ≤ (pyGet wave i).t then
          if i = 0 then (some i, [i])
          else if (pyGet wave (i - 1)).t < t then (some i, [i, i - 1])
          else
            let r := binLoop wave t f (d / 2) (i - (d : ℤ))
            (r.1, i :: (i - 1) :: i :: r.2)
        else
          let r := binLoop wave t f (d / 2) (i + (d : ℤ))
          (r.1, i :: i :: r.2)
      else
        let r := binLoop wave t f (d / 2) (i - (d : ℤ))
        (r.1, r.2)

/-- binsearch_v2 of heterodyne.py.  An empty table makes math.log(0.)
raise, modelled by none.  Otherwise d starts at the smallest power of
two that is at least the table length, i starts at d, and the loop runs
until it breaks or d reaches 0; the pair (i, wave[i]) is returned. -/
def binsearch_v2 (wave : List (WaveEntry α)) (t : α) :
    Option (ℤ × WaveEntry α) :=
  if wave.length = 0 then none
  else
    (binLoop wave t (clog2 wave.length + 1)
        (2 ^ clog2 wave.length) (2 ^ clog2 wave.length)).1.map
      (fun i => (i, pyGet wave i))

/-- All indices passed to wave[...] during a call of binsearch_v2: the
accesses made inside the loop followed by the final access wave[i] of
the return statement. -/
def binsearchAccesses (wave : List (WaveEntry α)) (t : α) : List ℤ :=
  if wave.length = 0 then []
  else
    let r := binLoop wave t (clog2 wave.length + 1)
        (2 ^ clog2 wave.length) (2 ^ clog2 wave.length)
    r.2 ++ (match r.1 with
      | some i => [i]
      | none => [])

/-- The 4-entry table of the exact search scenario of the spec. -/
def wave7 : List (WaveEntry ℚ) := [⟨0, 0⟩, ⟨1/4, 1⟩, ⟨1/2, 2⟩, ⟨3/4, 3⟩]

/-- An integer-phase table, as produced by the quantizing self test, used
as the concrete instance for the witnesses. -/
def waveW : List (WaveEntry ℤ) := [⟨0, 0⟩, ⟨1, 1⟩, ⟨2, 2⟩, ⟨3, 3⟩]


/-- 0.5 divided by pi, the factor pi2_inv of both builders. -/
noncomputable def pi2_inv : ℝ := 0.5 / Real.pi

/-- The first loop of acos_v8 (and of the tuple-based acos): at each
step it emits an entry with phase acos(cosine) * pi2_inv and amplitude
n, then decrements n and steps cosine down by step.  The float
accumulation of the source is modelled by exact real arithmetic. -/
noncomputable def acosLoop1 (step : ℝ) : ℕ → ℤ → ℝ → List (WaveEntry ℝ)
  | 0, _, _ => []
  | m + 1, n, cosine =>
    ⟨Real.arccos cosine * pi2_inv, n⟩ :: acosLoop1 step m (n - 1) (cosine - step)

/-- The table built by acos_v8 of heterodyne.py when peak is nonzero:
resolution entries from the acos loop (indices 0 to peak, with n
starting at peak - half and cosine at 1), then for x in
[resolution, 2 peak) the reflection wave[x] = (1 - wave[2 peak - x].t,
wave[2 peak - x].n).  Integer division by 2 in Lean agrees with the
floor division of Python. -/
noncomputable def acosTable (resolution : ℤ) : List (WaveEntry ℝ) :=
  let peak := resolution - 1
  let half := resolution / 2
  let step : ℝ := 2 / (peak : ℝ)
  let w1 := acosLoop1 step resolution.toNat (peak - half) 1
  w1 ++ (List.range (2 * peak - resolution).toNat).map (fun k : ℕ =>
    let src := w1.getD (2 * peak - (resolution + (k : ℤ))).toNat ⟨0, 0⟩
    ⟨1 - src.t, src.n⟩)

/-- acos_v8 of heterodyne.py.  peak = 0 (resolution = 1) makes
step = 2./peak raise ZeroDivisionError before any table exists,
modelled by none. -/
noncomputable def acos_v8 (resolution : ℤ) : Option (List (WaveEntry ℝ)) :=
  if resolution - 1 = 0 then none else some (acosTable resolution)

/-- The table built by the tuple-based acos of giant_switch.py: the same
first loop (appending), but the reflection loop runs for x in
[resolution, 2 peak + 1), one index further than acos_v8, appending a
final entry with phase 1 - wave[0].t. -/
noncomputable def acosTableGS (resolution : ℤ) : List (WaveEntry ℝ) :=
  let peak := resolution - 1
  let half := resolution / 2
  let step : ℝ := 2 / (peak : ℝ)
  let w1 := acosLoop1 step resolution.toNat (peak - half) 1
  w1 ++ (List.range (2 * peak + 1 - resolution).toNat).map (fun k : ℕ =>
    let src := w1.getD (2 * peak - (resolution + (k : ℤ))).toNat ⟨0, 0⟩
    ⟨1 - src.t, src.n⟩)

/-- acos of giant_switch.py (the tuple-returning cosine builder). -/
noncomputable def acos (resolution : ℤ) : Option (List (WaveEntry ℝ)) :=
  if resolution - 1 = 0 then none else some (acosTableGS resolution)

/-- The first loop of asin_v7: emits asin(sine) * pi2_inv with amplitude
n, then increments n and steps sine up by step. -/
noncomputable def asinLoop1 (step : ℝ) : ℕ → ℤ → ℝ → List (WaveEntry ℝ)
  | 0, _, _ => []
  | m + 1, n, sine =>
    ⟨Real.arcsin sine * pi2_inv, n⟩ :: asinLoop1 step m (n + 1) (sine + step)

/-- The first half (indices 0 to peak - 1) of the asin_v7 table: half
entries from the asin loop (n starting at half, sine at half*step - 1),
then for x in [half, peak) the reflection
wave[x] = (0.5 - wave[peak - x - 1].t, wave[peak - x - 1].n). -/
noncomputable def asinHalf (resolution : ℤ) : List (WaveEntry ℝ) :=
  let peak := resolution - 1
  let half := resolution / 2
  let step : ℝ := 2 / (peak : ℝ)
  let w1 := asinLoop1 step half.toNat half ((half : ℝ) * step - 1)
  w1 ++ (List.range (peak - half).toNat).map (fun k : ℕ =>
    let src := w1.getD (peak - (half + (k : ℤ)) - 1).toNat ⟨0, 0⟩
    ⟨0.5 - src.t, src.n⟩)

/-- The full asin_v7 table: the first half, then for x in
[peak, 2 peak) the reflection wave[x] = (0.5 + wave[x - peak].t,
peak - wave[x - peak].n). -/
noncomputable def asinTable (resolution : ℤ) : List (WaveEntry ℝ) :=
  let peak := resolution - 1
  asinHalf resolution ++ (List.range (2 * peak - peak).toNat).map (fun k : ℕ =>
    let src := (asinHalf resolution).getD k ⟨0, 0⟩
    ⟨0.5 + src.t, peak - src.n⟩)

/-- asin_v7 of heterodyne.py; peak = 0 raises as in acos_v8. -/
noncomputable def asin_v7 (resolution : ℤ) : Option (List (WaveEntry ℝ)) :=
  if resolution - 1 = 0 then none else some (asinTable resolution)

/-- Closed form of the phase written by iteration y of the acos loop:
acos(1 - y*step) * pi2_inv. -/
noncomputable def acPhase (resolution : ℤ) (y : ℤ) : ℝ :=
  Real.arccos (1 - (y : ℝ) * (2 / ((resolution - 1 : ℤ) : ℝ))) * pi2_inv

/-- Closed form of the amplitude written by iteration y of the acos
loop: peak - half - y. -/
def acAmp (resolution : ℤ) (y : ℤ) : ℤ :=
  (resolution - 1) - resolution / 2 - y

/-- Closed form of the phase asin(z*step - 1) * pi2_inv; iteration k of
the asin loop writes this for z = half + k. -/
noncomputable def asPhase (resolution : ℤ) (z : ℤ) : ℝ :=
  Real.arcsin ((z : ℝ) * (2 / ((resolution - 1 : ℤ) : ℝ)) - 1) * pi2_inv

/-- When d has reached 0 the loop exits at once with the current index,
whatever fuel remains. -/
theorem binLoop_zero_d (wave : List (WaveEntry α)) (t : α) (f : ℕ) (i : ℤ) :
    binLoop wave t f 0 i = (some i, []) := by
  cases f <;> simp [binLoop]

omit [LinearOrder α] in
/-- A nonnegative index is plain list indexing. -/
theorem pyGet_nonneg (wave : List (WaveEntry α)) (i : ℤ) (h : 0 ≤ i) :
    pyGet wave i = wave.getD i.toNat ⟨default, 0⟩ := by
  simp [pyGet, not_lt.mpr h]


theorem acosLoop1_length (step : ℝ) :
    ∀ (m : ℕ) (n : ℤ) (c : ℝ), (acosLoop1 step m n c).length = m := by
  intro m
  induction m with
  | zero => intro n c; rfl
  | succ m ih => intro n c; simp [acosLoop1, ih]

theorem asinLoop1_length (step : ℝ) :
    ∀ (m : ℕ) (n : ℤ) (c : ℝ), (asinLoop1 step m n c).length = m := by
  intro m
  induction m with
  | zero => intro n c; rfl
  | succ m ih => intro n c; simp [asinLoop1, ih]

theorem acosLoop1_getD (step : ℝ) :
    ∀ (m k : ℕ), k < m → ∀ (n : ℤ) (c : ℝ),
      (acosLoop1 step m n c).getD k ⟨0, 0⟩ =
        ⟨Real.arccos (c - k * step) * pi2_inv, n - k⟩ := by
  intro m
  induction m with
  | zero => intro k hk; omega
  | succ m ih =>
    intro k hk n c
    cases k with
    | zero => simp [acosLoop1]
    | succ k =>
      rw [acosLoop1, List.getD_cons_succ, ih k (by omega)]
      have h1 : c - step - (k : ℝ) * step = c - ((k : ℕ) + 1 : ℝ) * step := by ring
      have h2 : n - 1 - (k : ℤ) = n - ((k : ℕ) + 1 : ℤ) := by ring
      rw [h1, h2]
      push_cast
      ring_nf

theorem asinLoop1_getD (step : ℝ) :
    ∀ (m k : ℕ), k < m → ∀ (n : ℤ) (c : ℝ),
      (asinLoop1 step m n c).getD k ⟨0, 0⟩ =
        ⟨Real.arcsin (c + k * step) * pi2_inv, n + k⟩ := by
  intro m
  induction m with
  | zero => intro k hk; omega
  | succ m ih =>
    intro k hk n c
    cases k with
    | zero => simp [asinLoop1]
    | succ k =>
      rw [asinLoop1, List.getD_cons_succ, ih k (by omega)]
      have h1 : c + step + (k : ℝ) * step = c + ((k : ℕ) + 1 : ℝ) * step := by ring
      have h2 : n + 1 + (k : ℤ) = n + ((k : ℕ) + 1 : ℤ) := by ring
      rw [h1, h2]
      push_cast
      ring_nf

/-- Indexing into the left part of an append. -/
theorem getD_append_lo {β : Type} (w l2 : List β) (x : ℕ) (d : β)
    (h : x < w.length) : (w ++ l2).getD x d = w.getD x d := by
  rw [List.getD_eq_getElem?_getD, List.getElem?_append_left h,
    ← List.getD_eq_getElem?_getD]

/-- Indexing into a mapped range appended on the right. -/
theorem getD_append_map_range {β : Type} (w : List β) (f : ℕ → β)
    (M x : ℕ) (d : β) (h1 : w.length ≤ x) (h2 : x - w.length < M) :
    (w ++ (List.range M).map f).getD x d = f (x - w.length) := by
  rw [List.getD_eq_getElem?_getD, List.getElem?_append_right h1,
    List.getElem?_map, List.getElem?_range h2]
  rfl


theorem acosTable_length (r : ℤ) (hr : 2 ≤ r) :
    (acosTable r).length = (2 * (r - 1)).toNat := by
  simp [acosTable, acosLoop1_length]
  omega

theorem acosTableGS_length (r : ℤ) (hr : 2 ≤ r) :
    (acosTableGS r).length = (2 * (r - 1)).toNat + 1 := by
  simp [acosTableGS, acosLoop1_length]
  omega

theorem asinHalf_length (r : ℤ) (hr : 2 ≤ r) :
    (asinHalf r).length = (r - 1).toNat := by
  simp [asinHalf, asinLoop1_length]
  omega

theorem asinTable_length (r : ℤ) (hr : 2 ≤ r) :
    (asinTable r).length = (2 * (r - 1)).toNat := by
  simp [asinTable, asinHalf_length r hr]
  omega

theorem acPhase_natCast (r : ℤ) (k : ℕ) :
    acPhase r (k : ℤ) =
      Real.arccos (1 - (k : ℝ) * (2 / ((r - 1 : ℤ) : ℝ))) * pi2_inv := by
  simp [acPhase]

theorem asPhase_natCast (r : ℤ) (k : ℕ) :
    asPhase r (k : ℤ) =
      Real.arcsin ((k : ℝ) * (2 / ((r - 1 : ℤ) : ℝ)) - 1) * pi2_inv := by
  simp [asPhase]

theorem acosTable_getD_lo (r : ℤ) (hr : 2 ≤ r) (x : ℕ) (hx : (x : ℤ) ≤ r - 1) :
    (acosTable r).getD x ⟨0, 0⟩ = ⟨acPhase r x, acAmp r x⟩ := by
  simp only [acosTable]
  rw [getD_append_lo _ _ _ _ (by rw [acosLoop1_length]; omega),
    acosLoop1_getD _ _ _ (by omega : x < r.toNat), acPhase_natCast]
  simp only [acAmp]

theorem acosTable_getD_hi (r : ℤ) (hr : 2 ≤ r) (x : ℕ)
    (hx1 : r - 1 < (x : ℤ)) (hx2 : (x : ℤ) < 2 * (r - 1)) :
    (acosTable r).getD x ⟨0, 0⟩ =
      ⟨1 - acPhase r (2 * (r - 1) - x), acAmp r (2 * (r - 1) - x)⟩ := by
  simp only [acosTable]
  rw [getD_append_map_range _ _ _ _ _ (by rw [acosLoop1_length]; omega)
    (by rw [acosLoop1_length]; omega)]
  simp only [acosLoop1_length]
  have hxr : ((x - r.toNat : ℕ) : ℤ) = (x : ℤ) - r := by omega
  rw [hxr]
  have hidx : 2 * (r - 1) - (r + ((x : ℤ) - r)) = 2 * (r - 1) - x := by ring
  rw [hidx]
  have hc : (((2 * (r - 1) - (x : ℤ)).toNat : ℕ) : ℤ) = 2 * (r - 1) - x := by omega
  rw [acosLoop1_getD _ _ _ (by omega : (2 * (r - 1) - (x : ℤ)).toNat < r.toNat),
    ← hc, acPhase_natCast]
  simp only [acAmp]
  norm_num

theorem acosTableGS_getD_lo (r : ℤ) (hr : 2 ≤ r) (x : ℕ) (hx : (x : ℤ) ≤ r - 1) :
    (acosTableGS r).getD x ⟨0, 0⟩ = ⟨acPhase r x, acAmp r x⟩ := by
  simp only [acosTableGS]
  rw [getD_append_lo _ _ _ _ (by rw [acosLoop1_length]; omega),
    acosLoop1_getD _ _ _ (by omega : x < r.toNat), acPhase_natCast]
  simp only [acAmp]

theorem acosTableGS_getD_hi (r : ℤ) (hr : 2 ≤ r) (x : ℕ)
    (hx1 : r - 1 < (x : ℤ)) (hx2 : (x : ℤ) ≤ 2 * (r - 1)) :
    (acosTableGS r).getD x ⟨0, 0⟩ =
      ⟨1 - acPhase r (2 * (r - 1) - x), acAmp r (2 * (r - 1) - x)⟩ := by
  simp only [acosTableGS]
  rw [getD_append_map_range _ _ _ _ _ (by rw [acosLoop1_length]; omega)
    (by rw [acosLoop1_length]; omega)]
  simp only [acosLoop1_length]
  have hxr : ((x - r.toNat : ℕ) : ℤ) = (x : ℤ) - r := by omega
  rw [hxr]
  have hidx : 2 * (r - 1) - (r + ((x : ℤ) - r)) = 2 * (r - 1) - x := by ring
  rw [hidx]
  have hc : (((2 * (r - 1) - (x : ℤ)).toNat : ℕ) : ℤ) = 2 * (r - 1) - x := by omega
  rw [acosLoop1_getD _ _ _ (by omega : (2 * (r - 1) - (x : ℤ)).toNat < r.toNat),
    ← hc, acPhase_natCast]
  simp only [acAmp]
  norm_num

theorem asinHalf_getD_lo (r : ℤ) (hr : 2 ≤ r) (x : ℕ) (hx : (x : ℤ) < r / 2) :
    (asinHalf r).getD x ⟨0, 0⟩ = ⟨asPhase r (r / 2 + x), r / 2 + x⟩ := by
  simp only [asinHalf]
  rw [getD_append_lo _ _ _ _ (by rw [asinLoop1_length]; omega),
    asinLoop1_getD _ _ _ (by omega : x < (r / 2).toNat)]
  have hz : ((r / 2 : ℤ) : ℝ) * (2 / ((r - 1 : ℤ) : ℝ)) - 1 + (x : ℝ) * (2 / ((r - 1 : ℤ) : ℝ)) =
      ((r / 2 + (x : ℤ) : ℤ) : ℝ) * (2 / ((r - 1 : ℤ) : ℝ)) - 1 := by
    push_cast
    ring
  rw [hz]
  simp [asPhase]

theorem asinHalf_getD_hi (r : ℤ) (hr : 2 ≤ r) (x : ℕ)
    (hx1 : r / 2 ≤ (x : ℤ)) (hx2 : (x : ℤ) < r - 1) :
    (asinHalf r).getD x ⟨0, 0⟩ =
      ⟨0.5 - asPhase r (r / 2 + ((r - 1) - x - 1)),
        r / 2 + ((r - 1) - x - 1)⟩ := by
  simp only [asinHalf]
  rw [getD_append_map_range _ _ _ _ _ (by rw [asinLoop1_length]; omega)
    (by rw [asinLoop1_length]; omega)]
  simp only [asinLoop1_length]
  have hxr : ((x - (r / 2).toNat : ℕ) : ℤ) = (x : ℤ) - r / 2 := by omega
  rw [hxr]
  have hidx : r - 1 - (r / 2 + ((x : ℤ) - r / 2)) - 1 = (r - 1) - x - 1 := by ring
  rw [hidx]
  have hc : ((((r - 1) - (x : ℤ) - 1).toNat : ℕ) : ℤ) = (r - 1) - x - 1 := by omega
  rw [asinLoop1_getD _ _ _ (by omega : ((r - 1) - (x : ℤ) - 1).toNat < (r / 2).toNat)]
  have hz : ((r / 2 : ℤ) : ℝ) * (2 / ((r - 1 : ℤ) : ℝ)) - 1 +
        ((((r - 1) - (x : ℤ) - 1).toNat : ℕ) : ℝ) * (2 / ((r - 1 : ℤ) : ℝ)) =
      ((r / 2 + ((r - 1) - (x : ℤ) - 1) : ℤ) : ℝ) * (2 / ((r - 1 : ℤ) : ℝ)) - 1 := by
    have : ((((r - 1) - (x : ℤ) - 1).toNat : ℕ) : ℝ) = (((r - 1) - (x : ℤ) - 1 : ℤ) : ℝ) := by
      exact_mod_cast congrArg (fun z : ℤ => (z : ℝ)) hc
    rw [this]
    push_cast
    ring
  rw [hz]
  simp only [asPhase, WaveEntry.mk.injEq]
  constructor
  · norm_num
  · omega

theorem asinTable_getD_lo (r : ℤ) (hr : 2 ≤ r) (x : ℕ) (hx : (x : ℤ) < r - 1) :
    (asinTable r).getD x ⟨0, 0⟩ = (asinHalf r).getD x ⟨0, 0⟩ := by
  simp only [asinTable]
  rw [getD_append_lo _ _ _ _ (by rw [asinHalf_length r hr]; omega)]

theorem asinTable_getD_hi (r : ℤ) (hr : 2 ≤ r) (x : ℕ)
    (hx1 : r - 1 ≤ (x : ℤ)) (hx2 : (x : ℤ) < 2 * (r - 1)) :
    (asinTable r).getD x ⟨0, 0⟩ =
      ⟨0.5 + ((asinHalf r).getD (x - (r - 1).toNat) ⟨0, 0⟩).t,
        (r - 1) - ((asinHalf r).getD (x - (r - 1).toNat) ⟨0, 0⟩).n⟩ := by
  simp only [asinTable]
  rw [getD_append_map_range _ _ _ _ _ (by rw [asinHalf_length r hr]; omega)
    (by rw [asinHalf_length r hr]; omega)]
  rw [asinHalf_length r hr]

theorem clog2F_le : ∀ f n : ℕ, n ≤ f + 1 → n ≤ 2 ^ clog2F f n := by
  intro f
  induction f with
  | zero => intro n hn; interval_cases n <;> simp [clog2F]
  | succ f ih =>
    intro n hn
    by_cases h1 : n ≤ 1
    · have : (1:ℕ) ≤ 2 ^ clog2F (f+1) n := Nat.one_le_two_pow
      omega
    · have hrec := ih ((n + 1) / 2) (by omega)
      simp only [clog2F, h1, if_false]
      have h2 : 2 ^ (clog2F f ((n + 1) / 2) + 1) = 2 * 2 ^ clog2F f ((n + 1) / 2) := by
        rw [Nat.pow_succ]; ring
      omega

theorem clog2F_min : ∀ f n m : ℕ, n ≤ f + 1 → n ≤ 2 ^ m → clog2F f n ≤ m := by
  intro f
  induction f with
  | zero => intro n m h1 h2; simp [clog2F]
  | succ f ih =>
    intro n m h1 h2
    by_cases hn : n ≤ 1
    · simp [clog2F, hn]
    · simp only [clog2F, hn, if_false]
      rcases m with _ | m
      · simp at h2; omega
      · have h2p : 2 ^ (m + 1) = 2 * 2 ^ m := by rw [Nat.pow_succ]; ring
        have : (n + 1) / 2 ≤ 2 ^ m := by omega
        exact Nat.succ_le_succ (ih _ _ (by omega) this)

/-- The initial step size of binsearch_v2 is at least the table length. -/
theorem clog2_le (n : ℕ) : n ≤ 2 ^ clog2 n :=
  clog2F_le n n (by omega)

/-- The initial step size of binsearch_v2 is the least such power of two. -/
theorem clog2_min (n m : ℕ) (h : n ≤ 2 ^ m) : clog2 n ≤ m :=
  clog2F_min n n m (by omega) h

/-- Fuel sufficiency: starting from step size 2 to the j, the loop exits
(by break or by d reaching 0) within j + 1 iterations. -/
theorem binLoop_isSome (wave : List (WaveEntry α)) (t : α) :
    ∀ j f : ℕ, ∀ i : ℤ, j + 1 ≤ f → (binLoop wave t f (2 ^ j) i).1.isSome := by
  intro j
  induction j with
  | zero =>
    intro f i hf
    obtain ⟨e, rfl⟩ : ∃ e, f = e + 1 := ⟨f - 1, by omega⟩
    simp only [binLoop, pow_zero]
    split_ifs <;> simp [binLoop_zero_d]
  | succ j ih =>
    intro f i hf
    obtain ⟨e, rfl⟩ : ∃ e, f = e + 1 := ⟨f - 1, by omega⟩
    have hd : 2 ^ (j + 1) / 2 = 2 ^ j := by
      rw [Nat.pow_succ]; exact Nat.mul_div_cancel _ (by norm_num)
    have hne : (2:ℕ) ^ (j + 1) ≠ 0 := by positivity
    simp only [binLoop, hd, hne, if_false]
    split_ifs with h1 h2 h3 h4
    · simp
    · simp
    · exact ih e _ (by omega)
    · exact ih e _ (by omega)
    · exact ih e _ (by omega)

/-- Adjacent non-decrease extends to arbitrary index pairs. -/
theorem mono_of_adjacent (wave : List (WaveEntry α))
    (hadj : ∀ k : ℕ, k < wave.length - 1 → phD wave k ≤ phD wave (k + 1)) :
    ∀ u v : ℕ, u ≤ v → v < wave.length → phD wave u ≤ phD wave v := by
  intro u v huv
  induction v, huv using Nat.le_induction with
  | base => intro _; exact le_refl _
  | succ v hv ih =>
    intro hlt
    exact le_trans (ih (by omega)) (hadj v (by omega))

/-- Main loop invariant.  a is the first index whose phase is at least
t.  If the current index i is nonnegative, divisible by the current
step, and within the window of width 2 d - 1 around a, the loop returns
exactly a. -/
theorem binLoop_main (wave : List (WaveEntry α)) (t : α)
    (hmono : ∀ u v : ℕ, u ≤ v → v < wave.length → phD wave u ≤ phD wave v)
    (a : ℕ) (ha : a < wave.length)
    (hat : t ≤ phD wave a)
    (hfirst : ∀ k : ℕ, k < a → phD wave k < t) :
    ∀ j : ℕ, ∀ i : ℤ, ∀ f : ℕ, j + 1 ≤ f → 0 ≤ i → ((2:ℤ) ^ j ∣ i) →
      i - (2 * 2 ^ j - 1) ≤ (a : ℤ) → (a : ℤ) ≤ i + (2 * 2 ^ j - 1) →
      (binLoop wave t f (2 ^ j) i).1 = some (a : ℤ) := by
  have hbreak : ∀ i : ℤ, 0 ≤ i → i < (wave.length : ℤ) →
      t ≤ (pyGet wave i).t → (i = 0 ∨ (pyGet wave (i - 1)).t < t) → i = (a : ℤ) := by
    intro i h0 hl hc1 hc2
    obtain ⟨k, rfl⟩ : ∃ k : ℕ, i = (k : ℤ) := ⟨i.toNat, (Int.toNat_of_nonneg h0).symm⟩
    rw [pyGet_nonneg _ _ h0, Int.toNat_natCast] at hc1
    have hkl : k < wave.length := by exact_mod_cast hl
    have hka : a ≤ k := by
      by_contra hlt
      exact absurd hc1 (not_le.mpr (hfirst k (by omega)))
    rcases Nat.eq_zero_or_pos k with hk0 | hk1
    · omega
    · have hk : k ≤ a := by
        rcases hc2 with h | h
        · exact absurd h (by exact_mod_cast Nat.pos_iff_ne_zero.mp hk1)
        · have h0' : (0:ℤ) ≤ (k : ℤ) - 1 := by omega
          rw [pyGet_nonneg _ _ h0'] at h
          have htn : ((k : ℤ) - 1).toNat = k - 1 := by omega
          rw [htn] at h
          by_contra hgt
          have hak : a ≤ k - 1 := by omega
          exact absurd hat
            (not_le.mpr (lt_of_le_of_lt (hmono a (k - 1) hak (by omega)) h))
      omega
  have hstepL : ∀ i : ℤ, 1 ≤ i → t ≤ (pyGet wave (i - 1)).t → (a : ℤ) ≤ i - 1 := by
    intro i h1 hc
    obtain ⟨k, rfl⟩ : ∃ k : ℕ, i = (k : ℤ) := ⟨i.toNat, (Int.toNat_of_nonneg (by omega)).symm⟩
    have hk1 : 1 ≤ k := by exact_mod_cast h1
    have h0' : (0:ℤ) ≤ (k : ℤ) - 1 := by omega
    rw [pyGet_nonneg _ _ h0'] at hc
    have htn : ((k : ℤ) - 1).toNat = k - 1 := by omega
    rw [htn] at hc
    have : a ≤ k - 1 := by
      by_contra hgt
      exact absurd hc (not_le.mpr (hfirst (k - 1) (by omega)))
    omega
  have hstepR : ∀ i : ℤ, 0 ≤ i → i < (wave.length : ℤ) →
      (pyGet wave i).t < t → i < (a : ℤ) := by
    intro i h0 hl hc
    obtain ⟨k, rfl⟩ : ∃ k : ℕ, i = (k : ℤ) := ⟨i.toNat, (Int.toNat_of_nonneg h0).symm⟩
    rw [pyGet_nonneg _ _ h0, Int.toNat_natCast] at hc
    have hkl : k < wave.length := by exact_mod_cast hl
    have : k < a := by
      by_contra hge
      exact absurd hat (not_le.mpr (lt_of_le_of_lt (hmono a k (by omega) hkl) hc))
    exact_mod_cast this
  have hal : (a : ℤ) < (wave.length : ℤ) := by exact_mod_cast ha
  intro j
  induction j with
  | zero =>
    intro i f hf h0 _ hwin1 hwin2
    obtain ⟨e, rfl⟩ : ∃ e, f = e + 1 := ⟨f - 1, by omega⟩
    norm_num at hwin1 hwin2
    have hd0 : (2:ℕ) ^ 0 / 2 = 0 := rfl
    have hdne : (2:ℕ) ^ 0 ≠ 0 := by norm_num
    have hcast0 : ((2 ^ 0 : ℕ) : ℤ) = 1 := by norm_num
    simp only [binLoop, hd0, hdne, if_false, hcast0, binLoop_zero_d]
    split_ifs with h1 h2 h3 h4
    · exact congrArg some (hbreak i h0 h1 h2 (Or.inl h3))
    · exact congrArg some (hbreak i h0 h1 h2 (Or.inr h4))
    · have hb := hstepL i (by omega) (not_lt.mp h4)
      exact congrArg some (by omega)
    · have hb := hstepR i h0 h1 (not_le.mp h2)
      exact congrArg some (by omega)
    · have hb : (a : ℤ) < i := lt_of_lt_of_le hal (not_lt.mp h1)
      exact congrArg some (by omega)
  | succ j ih =>
    intro i f hf h0 hdvd hwin1 hwin2
    obtain ⟨e, rfl⟩ : ∃ e, f = e + 1 := ⟨f - 1, by omega⟩
    have hd : 2 ^ (j + 1) / 2 = 2 ^ j := by
      rw [Nat.pow_succ]; exact Nat.mul_div_cancel _ (by norm_num)
    have hdne : (2:ℕ) ^ (j + 1) ≠ 0 := by positivity
    have hp1 : (1:ℤ) ≤ 2 ^ j := one_le_pow₀ (by norm_num)
    have hcast : ((2 ^ (j + 1) : ℕ) : ℤ) = 2 * 2 ^ j := by push_cast [pow_succ]; ring
    have hdvd2 : (2:ℤ) ^ j ∣ i := dvd_trans (pow_dvd_pow 2 (by omega)) hdvd
    have hle : 0 < i → 2 * 2 ^ j ≤ i := by
      intro hpos
      have h := Int.le_of_dvd hpos hdvd
      rw [pow_succ] at h
      omega
    rw [pow_succ] at hwin1 hwin2
    simp only [binLoop, hd, hdne, if_false, hcast]
    split_ifs with h1 h2 h3 h4
    · exact congrArg some (hbreak i h0 h1 h2 (Or.inl h3))
    · exact congrArg some (hbreak i h0 h1 h2 (Or.inr h4))
    · have hb := hstepL i (by omega) (not_lt.mp h4)
      have hge := hle (by omega)
      exact ih (i - 2 * 2 ^ j) e (by omega) (by omega)
        (dvd_sub hdvd2 (dvd_mul_left _ _)) (by omega) (by omega)
    · have hb := hstepR i h0 h1 (not_le.mp h2)
      exact ih (i + 2 * 2 ^ j) e (by omega) (by omega)
        (dvd_add hdvd2 (dvd_mul_left _ _)) (by omega) (by omega)
    · have hb : (a : ℤ) < i := lt_of_lt_of_le hal (not_lt.mp h1)
      have hge := hle (by omega)
      exact ih (i - 2 * 2 ^ j) e (by omega) (by omega)
        (dvd_sub hdvd2 (dvd_mul_left _ _)) (by omega) (by omega)
/-- The loop of binsearch_v2, run with its actual fuel and initial step
size, returns precisely the first index whose phase is at least t. -/
theorem binLoop_find (wave : List (WaveEntry α)) (t : α)
    (hne : wave ≠ [])
    (hadj : ∀ k : ℕ, k < wave.length - 1 → phD wave k ≤ phD wave (k + 1))
    (hrange : t ≤ phD wave (wave.length - 1)) :
    ∃ a : ℕ, a < wave.length ∧ t ≤ phD wave a ∧
      (∀ k : ℕ, k < a → phD wave k < t) ∧
      (binLoop wave t (clog2 wave.length + 1)
        (2 ^ clog2 wave.length) (2 ^ clog2 wave.length)).1 = some (a : ℤ) := by
  have hl : 0 < wave.length := List.length_pos.mpr hne
  have hmono := mono_of_adjacent wave hadj
  have H : ∃ k : ℕ, t ≤ phD wave k := ⟨wave.length - 1, hrange⟩
  have ha : Nat.find H < wave.length :=
    lt_of_le_of_lt (Nat.find_min' H hrange) (by omega)
  have hfirst : ∀ k : ℕ, k < Nat.find H → phD wave k < t :=
    fun k hk => not_le.mp (Nat.find_min H hk)
  refine ⟨Nat.find H, ha, Nat.find_spec H, hfirst, ?_⟩
  have hp1 : (1:ℤ) ≤ 2 ^ clog2 wave.length := one_le_pow₀ (by norm_num)
  have hcl : (wave.length : ℤ) ≤ 2 ^ clog2 wave.length := by
    have := clog2_le wave.length
    exact_mod_cast this
  have hal : ((Nat.find H : ℕ) : ℤ) < (wave.length : ℤ) := by exact_mod_cast ha
  exact binLoop_main wave t hmono (Nat.find H) ha (Nat.find_spec H) hfirst
    (clog2 wave.length) (2 ^ clog2 wave.length) (clog2 wave.length + 1)
    (le_refl _) (by positivity) dvd_rfl (by omega) (by omega)

/-- Every index recorded in the access trace of the loop is in range,
provided the table is non-empty and the current index is nonnegative and
divisible by the current step size. -/
theorem binLoop_acc (wave : List (WaveEntry α)) (t : α) (hl : 0 < wave.length) :
    ∀ j : ℕ, ∀ i : ℤ, ∀ f : ℕ, 0 ≤ i → ((2:ℤ) ^ j ∣ i) →
      ∀ x ∈ (binLoop wave t f (2 ^ j) i).2, 0 ≤ x ∧ x < (wave.length : ℤ) := by
  intro j
  induction j with
  | zero =>
    intro i f h0 _
    cases f with
    | zero => simp [binLoop]
    | succ e =>
      have hd0 : (2:ℕ) ^ 0 / 2 = 0 := rfl
      have hdne : (2:ℕ) ^ 0 ≠ 0 := by norm_num
      simp only [binLoop, hd0, hdne, if_false, binLoop_zero_d]
      split_ifs with h1 h2 h3 h4
      · intro x hx
        simp at hx
        exact hx ▸ ⟨h0, h1⟩
      · intro x hx
        simp at hx
        rcases hx with rfl | rfl
        · exact ⟨h0, h1⟩
        · exact ⟨by omega, by omega⟩
      · intro x hx
        simp at hx
        rcases hx with rfl | rfl | rfl
        · exact ⟨h0, h1⟩
        · exact ⟨by omega, by omega⟩
        · exact ⟨h0, h1⟩
      · intro x hx
        simp at hx
        exact hx ▸ ⟨h0, h1⟩
      · intro x hx
        simp at hx
  | succ j ih =>
    intro i f h0 hdvd
    cases f with
    | zero => simp [binLoop]
    | succ e =>
      have hd : 2 ^ (j + 1) / 2 = 2 ^ j := by
        rw [Nat.pow_succ]; exact Nat.mul_div_cancel _ (by norm_num)
      have hdne : (2:ℕ) ^ (j + 1) ≠ 0 := by positivity
      have hp1 : (1:ℤ) ≤ 2 ^ j := one_le_pow₀ (by norm_num)
      have hcast : ((2 ^ (j + 1) : ℕ) : ℤ) = 2 * 2 ^ j := by push_cast [pow_succ]; ring
      have hdvd2 : (2:ℤ) ^ j ∣ i := dvd_trans (pow_dvd_pow 2 (by omega)) hdvd
      have hle : 0 < i → 2 * 2 ^ j ≤ i := by
        intro hpos
        have h := Int.le_of_dvd hpos hdvd
        rw [pow_succ] at h
        omega
      simp only [binLoop, hd, hdne, if_false, hcast]
      split_ifs with h1 h2 h3 h4
      · intro x hx
        simp at hx
        exact hx ▸ ⟨h0, h1⟩
      · intro x hx
        simp at hx
        rcases hx with rfl | rfl
        · exact ⟨h0, h1⟩
        · exact ⟨by omega, by omega⟩
      · have hge := hle (by omega)
        intro x hx
        simp at hx
        rcases hx with rfl | rfl | rfl | hx
        · exact ⟨h0, h1⟩
        · exact ⟨by omega, by omega⟩
        · exact ⟨h0, h1⟩
        · exact ih (i - 2 * 2 ^ j) e (by omega)
            (dvd_sub hdvd2 (dvd_mul_left _ _)) x hx
      · intro x hx
        simp at hx
        rcases hx with rfl | hx
        · exact ⟨h0, h1⟩
        · exact ih (i + 2 * 2 ^ j) e (by omega)
            (dvd_add hdvd2 (dvd_mul_left _ _)) x hx
      · have hge := hle (by omega)
        intro x hx
        exact ih (i - 2 * 2 ^ j) e (by omega)
          (dvd_sub hdvd2 (dvd_mul_left _ _)) x hx

/-- C1: for every non-empty table with non-decreasing phases and every
query t at most the last phase, binsearch_v2 returns a pair (i, s) where
s is the entry at index i, t is at most the phase of s, and i is 0 or
the previous phase is strictly below t; i is the first index whose phase
is at least t, whether the loop breaks early or runs d down to 0. -/
theorem C1_find_bound (wave : List (WaveEntry α)) (t : α)
    (hne : wave ≠ [])
    (hadj : ∀ k : ℕ, k < wave.length - 1 → phD wave k ≤ phD wave (k + 1))
    (hrange : t ≤ phD wave (wave.length - 1)) :
    ∃ i : ℕ, binsearch_v2 wave t = some ((i : ℤ), wave.getD i ⟨default, 0⟩) ∧
      i < wave.length ∧ t ≤ phD wave i ∧
      (i = 0 ∨ phD wave (i - 1) < t) ∧ ∀ k : ℕ, k < i → phD wave k < t := by
  obtain ⟨a, ha, hat, hfirst, hloop⟩ := binLoop_find wave t hne hadj hrange
  have hl : wave.length ≠ 0 := fun h => hne (List.length_eq_zero.mp h)
  refine ⟨a, ?_, ha, hat, ?_, hfirst⟩
  · unfold binsearch_v2
    rw [if_neg hl, hloop, Option.map_some',
      pyGet_nonneg _ _ (by positivity : (0:ℤ) ≤ (a:ℤ)), Int.toNat_natCast]
  · rcases Nat.eq_zero_or_pos a with h | h
    · exact Or.inl h
    · exact Or.inr (hfirst (a - 1) (by omega))

/-- Witness for C1 at a concrete quantized 4-entry table with query 1. -/
theorem C1_find_bound_witness :
    (waveW ≠ [] ∧
      (∀ k : ℕ, k < waveW.length - 1 → phD waveW k ≤ phD waveW (k + 1)) ∧
      (1 : ℤ) ≤ phD waveW (waveW.length - 1)) ∧
    (∃ i : ℕ, binsearch_v2 waveW (1 : ℤ) =
        some ((i : ℤ), waveW.getD i ⟨default, 0⟩) ∧
      i < waveW.length ∧ (1 : ℤ) ≤ phD waveW i ∧
      (i = 0 ∨ phD waveW (i - 1) < (1 : ℤ)) ∧
      ∀ k : ℕ, k < i → phD waveW k < (1 : ℤ)) :=
  ⟨⟨by decide, by decide, by decide⟩,
    C1_find_bound waveW 1 (by decide) (by decide) (by decide)⟩

/-- C7: on the table with phases 0, 1/4, 1/2, 3/4 and amplitudes
0, 1, 2, 3, the query 3/10 returns index 2 with sample (1/2, 2) and the
query 0 returns index 0. -/
theorem C7_exact_scenario :
    binsearch_v2 wave7 (3/10 : ℚ) = some (2, ⟨1/2, 2⟩) ∧
    (binsearch_v2 wave7 (0 : ℚ)).map Prod.fst = some 0 := by
  constructor
  · norm_num [binsearch_v2, binLoop, wave7, clog2, clog2F, pyGet,
      show Int.toNat 2 = 2 from rfl]
  · norm_num [binsearch_v2, binLoop, wave7, clog2, clog2F, pyGet,
      show Int.toNat 2 = 2 from rfl]

/-- C9: for every non-empty table, the starting step d of binsearch_v2
is the smallest power of two at least the table length, and the search
terminates: the loop finishes within clog2 (length) + 1 iterations, the
fuel binsearch_v2 gives it, so the result is some value. -/
theorem C9_termination (wave : List (WaveEntry α)) (t : α) (hne : wave ≠ []) :
    wave.length ≤ 2 ^ clog2 wave.length ∧
    (∀ m : ℕ, wave.length ≤ 2 ^ m → 2 ^ clog2 wave.length ≤ 2 ^ m) ∧
    (binsearch_v2 wave t).isSome := by
  refine ⟨clog2_le _,
    fun m hm => Nat.pow_le_pow_right (by norm_num) (clog2_min _ m hm), ?_⟩
  have hl : wave.length ≠ 0 := fun h => hne (List.length_eq_zero.mp h)
  unfold binsearch_v2
  rw [if_neg hl]
  have hs := binLoop_isSome wave t (clog2 wave.length) (clog2 wave.length + 1)
    (2 ^ clog2 wave.length) (le_refl _)
  obtain ⟨x, hx⟩ := Option.isSome_iff_exists.mp hs
  rw [hx]
  rfl

/-- Witness for C9 at a concrete quantized 4-entry table. -/
theorem C9_termination_witness :
    (waveW ≠ []) ∧
    (waveW.length ≤ 2 ^ clog2 waveW.length ∧
      (∀ m : ℕ, waveW.length ≤ 2 ^ m → 2 ^ clog2 waveW.length ≤ 2 ^ m) ∧
      (binsearch_v2 waveW (0 : ℤ)).isSome) :=
  ⟨by decide, C9_termination waveW 0 (by decide)⟩

/-- C10: under the preconditions of the bound claim, every index passed
to wave[...] by binsearch_v2, inside the loop and in the final return,
lies in the range from 0 inclusive to the table length exclusive. -/
theorem C10_access_safety (wave : List (WaveEntry α)) (t : α)
    (hne : wave ≠ [])
    (hadj : ∀ k : ℕ, k < wave.length - 1 → phD wave k ≤ phD wave (k + 1))
    (hrange : t ≤ phD wave (wave.length - 1)) :
    ∀ x ∈ binsearchAccesses wave t, 0 ≤ x ∧ x < (wave.length : ℤ) := by
  have hl0 : 0 < wave.length := List.length_pos.mpr hne
  have hl : wave.length ≠ 0 := fun h => hne (List.length_eq_zero.mp h)
  obtain ⟨a, ha, hat, hfirst, hloop⟩ := binLoop_find wave t hne hadj hrange
  intro x hx
  unfold binsearchAccesses at hx
  rw [if_neg hl] at hx
  simp only [hloop] at hx
  rcases List.mem_append.mp hx with hx | hx
  · exact binLoop_acc wave t hl0 (clog2 wave.length) (2 ^ clog2 wave.length)
      (clog2 wave.length + 1) (by positivity) dvd_rfl x hx
  · have : x = (a : ℤ) := by simpa using hx
    subst this
    exact ⟨by positivity, by exact_mod_cast ha⟩

/-- Witness for C10 at a concrete quantized 4-entry table with query 1. -/
theorem C10_access_safety_witness :
    (waveW ≠ [] ∧
      (∀ k : ℕ, k < waveW.length - 1 → phD waveW k ≤ phD waveW (k + 1)) ∧
      (1 : ℤ) ≤ phD waveW (waveW.length - 1)) ∧
    (∀ x ∈ binsearchAccesses waveW (1 : ℤ), 0 ≤ x ∧ x < (waveW.length : ℤ)) :=
  ⟨⟨by decide, by decide, by decide⟩,
    C10_access_safety waveW 1 (by decide) (by decide) (by decide)⟩


theorem acosTable_nonpos (r : ℤ) (h : r ≤ 0) : acosTable r = [] := by
  have h1 : r.toNat = 0 := by omega
  have h2 : (2 * (r - 1) - r).toNat = 0 := by omega
  simp [acosTable, h1, h2, acosLoop1]

theorem asinHalf_nonpos (r : ℤ) (h : r ≤ 0) : asinHalf r = [] := by
  have h1 : (r / 2).toNat = 0 := by omega
  have h2 : (r - 1 - r / 2).toNat = 0 := by omega
  simp [asinHalf, h1, h2, asinLoop1]

theorem asinTable_nonpos (r : ℤ) (h : r ≤ 0) : asinTable r = [] := by
  have h2 : (2 * (r - 1) - (r - 1)).toNat = 0 := by omega
  simp [asinTable, asinHalf_nonpos r h, h2]

theorem pi2_inv_eq : pi2_inv = 1 / (2 * Real.pi) := by
  unfold pi2_inv
  rw [div_eq_div_iff Real.pi_ne_zero (by positivity)]
  ring

/-- C2 (amended): for resolution at least 2, acos_v8 builds a table of
exactly 2 (resolution - 1) entries, while the tuple-based acos of
giant_switch.py builds one entry more, 2 (resolution - 1) + 1, because
its reflection loop runs through index 2 peak inclusive. -/
theorem C2_lengths (r : ℤ) (hr : 2 ≤ r) :
    (acos_v8 r).map List.length = some ((2 * (r - 1)).toNat) ∧
    (acos r).map List.length = some ((2 * (r - 1)).toNat + 1) := by
  have hne : ¬(r - 1 = 0) := by omega
  unfold acos_v8 acos
  rw [if_neg hne, if_neg hne]
  simp [acosTable_length r hr, acosTableGS_length r hr]

/-- Witness for C2 at resolution 4. -/
theorem C2_lengths_witness :
    (2 : ℤ) ≤ 4 ∧
    ((acos_v8 4).map List.length = some ((2 * ((4:ℤ) - 1)).toNat) ∧
      (acos 4).map List.length = some ((2 * ((4:ℤ) - 1)).toNat + 1)) :=
  ⟨by norm_num, C2_lengths 4 (by norm_num)⟩

/-- C2 counterexample: at resolution 4 the tuple-based acos builds 7
entries, not 2 (resolution - 1) = 6 as the claim states for both
builders. -/
theorem C2_counterexample :
    (acos 4).map List.length = some 7 ∧ (7 : ℕ) ≠ 2 * (4 - 1) := by
  constructor
  · have h := acosTableGS_length 4 (by norm_num)
    unfold acos
    rw [if_neg (by norm_num)]
    simp [h]
  · norm_num

/-- C6 counterexample: resolution 0 is below 2, yet both builders return
an (empty) table rather than signalling an error. -/
theorem C6_counterexample :
    (0 : ℤ) < 2 ∧ acos_v8 0 = some [] ∧ asin_v7 0 = some [] ∧
      acos_v8 0 ≠ none ∧ asin_v7 0 ≠ none := by
  have h1 : acos_v8 0 = some [] := by
    unfold acos_v8
    rw [if_neg (by norm_num), acosTable_nonpos 0 (le_refl 0)]
  have h2 : asin_v7 0 = some [] := by
    unfold asin_v7
    rw [if_neg (by norm_num), asinTable_nonpos 0 (le_refl 0)]
  exact ⟨by norm_num, h1, h2, by simp [h1], by simp [h2]⟩

/-- C6 (amended): only resolution = 1 signals an error (the
ZeroDivisionError of step = 2./peak, before any table is allocated);
every resolution at most 0 silently returns an empty table. -/
theorem C6_domain_error (r : ℤ) (hr : r < 2) :
    (r = 1 → acos_v8 r = none ∧ asin_v7 r = none) ∧
    (r ≤ 0 → acos_v8 r = some [] ∧ asin_v7 r = some []) := by
  constructor
  · rintro rfl
    constructor <;> simp [acos_v8, asin_v7]
  · intro h0
    constructor
    · unfold acos_v8
      rw [if_neg (by omega), acosTable_nonpos r h0]
    · unfold asin_v7
      rw [if_neg (by omega), asinTable_nonpos r h0]

/-- Witness for C6 at resolution 0. -/
theorem C6_domain_error_witness :
    (0 : ℤ) < 2 ∧
    (((0:ℤ) = 1 → acos_v8 0 = none ∧ asin_v7 0 = none) ∧
      ((0:ℤ) ≤ 0 → acos_v8 0 = some [] ∧ asin_v7 0 = some [])) :=
  ⟨by norm_num, C6_domain_error 0 (by norm_num)⟩

/-- C3 (amended): acos_v8 4 has first four samples with phases exactly
0, acos(1/3)/(2 pi), acos(-1/3)/(2 pi), 1/2 and amplitudes 1, 0, -1, -2
(n starts at peak - half = 1 and decrements). -/
theorem C3_resolution4 :
    ∃ w, acos_v8 (4 : ℤ) = some w ∧
      w.getD 0 ⟨0, 0⟩ = ⟨0, 1⟩ ∧
      w.getD 1 ⟨0, 0⟩ = ⟨Real.arccos (1/3) / (2 * Real.pi), 0⟩ ∧
      w.getD 2 ⟨0, 0⟩ = ⟨Real.arccos (-(1/3)) / (2 * Real.pi), -1⟩ ∧
      w.getD 3 ⟨0, 0⟩ = ⟨1/2, -2⟩ := by
  refine ⟨acosTable 4, by unfold acos_v8; rw [if_neg (by norm_num)], ?_, ?_, ?_, ?_⟩
  · rw [acosTable_getD_lo 4 (by norm_num) 0 (by norm_num)]
    simp only [acPhase, acAmp, WaveEntry.mk.injEq, pi2_inv_eq, mul_one_div]
    norm_num [Real.arccos_one]
  · rw [acosTable_getD_lo 4 (by norm_num) 1 (by norm_num)]
    simp only [acPhase, acAmp, WaveEntry.mk.injEq, pi2_inv_eq, mul_one_div]
    norm_num
  · rw [acosTable_getD_lo 4 (by norm_num) 2 (by norm_num)]
    simp only [acPhase, acAmp, WaveEntry.mk.injEq, pi2_inv_eq, mul_one_div]
    norm_num
  · rw [acosTable_getD_lo 4 (by norm_num) 3 (by norm_num)]
    simp only [acPhase, acAmp, WaveEntry.mk.injEq, pi2_inv_eq, mul_one_div]
    norm_num [Real.arccos_neg_one]
    rw [div_eq_iff (by positivity : (2:ℝ) * Real.pi ≠ 0)]
    ring

/-- C3 counterexample: the first sample of acos_v8 4 has amplitude 1,
not 0 as the claim lists. -/
theorem C3_counterexample :
    ∃ w, acos_v8 (4 : ℤ) = some w ∧ (w.getD 0 ⟨0, 0⟩).n = 1 ∧ (1 : ℤ) ≠ 0 := by
  refine ⟨acosTable 4, by unfold acos_v8; rw [if_neg (by norm_num)], ?_, by norm_num⟩
  rw [acosTable_getD_lo 4 (by norm_num) 0 (by norm_num)]
  simp [acAmp]

/-- C5: in the reflected half of the acos_v8 table the amplitude at x
equals the amplitude at 2 peak - x and the phases at x and at
2 peak - x sum to exactly 1. -/
theorem C5_symmetry (r : ℤ) (hr : 2 ≤ r) (x : ℕ)
    (hx1 : r ≤ (x : ℤ)) (hx2 : (x : ℤ) < 2 * (r - 1)) :
    ∀ w, acos_v8 r = some w →
      (w.getD x ⟨0, 0⟩).n = (w.getD (2 * (r - 1) - (x : ℤ)).toNat ⟨0, 0⟩).n ∧
      (w.getD x ⟨0, 0⟩).t + (w.getD (2 * (r - 1) - (x : ℤ)).toNat ⟨0, 0⟩).t = 1 := by
  intro w hw
  have hw' : w = acosTable r := by
    unfold acos_v8 at hw
    rw [if_neg (by omega)] at hw
    exact (Option.some_injective _ hw).symm
  subst hw'
  have hc : (((2 * (r - 1) - (x : ℤ)).toNat : ℕ) : ℤ) = 2 * (r - 1) - x := by omega
  rw [acosTable_getD_hi r hr x (by omega) hx2,
    acosTable_getD_lo r hr ((2 * (r - 1) - (x : ℤ)).toNat) (by omega), hc]
  constructor
  · rfl
  · ring

/-- Witness for C5 at resolution 4, reflected index 4. -/
theorem C5_symmetry_witness :
    ((2 : ℤ) ≤ 4 ∧ (4 : ℤ) ≤ ((4 : ℕ) : ℤ) ∧ ((4 : ℕ) : ℤ) < 2 * ((4:ℤ) - 1)) ∧
    (∀ w, acos_v8 4 = some w →
      (w.getD 4 ⟨0, 0⟩).n = (w.getD (2 * ((4:ℤ) - 1) - ((4:ℕ) : ℤ)).toNat ⟨0, 0⟩).n ∧
      (w.getD 4 ⟨0, 0⟩).t + (w.getD (2 * ((4:ℤ) - 1) - ((4:ℕ) : ℤ)).toNat ⟨0, 0⟩).t = 1) :=
  ⟨⟨by norm_num, by norm_num, by norm_num⟩,
    C5_symmetry 4 (by norm_num) 4 (by norm_num) (by norm_num)⟩

/-- C8: asin_v7 assembles the table by two reflections: for
half <= x < peak the phase is 0.5 minus the phase at peak - x - 1 with
the amplitude preserved, and for peak <= x < 2 peak the phase is 0.5
plus the phase at x - peak with amplitude peak minus the amplitude at
x - peak. -/
theorem C8_reflections (r : ℤ) (hr : 2 ≤ r) :
    ∀ w, asin_v7 r = some w →
      (∀ x : ℕ, r / 2 ≤ (x : ℤ) → (x : ℤ) < r - 1 →
        (w.getD x ⟨0, 0⟩).t = 0.5 - (w.getD ((r - 1) - (x : ℤ) - 1).toNat ⟨0, 0⟩).t ∧
        (w.getD x ⟨0, 0⟩).n = (w.getD ((r - 1) - (x : ℤ) - 1).toNat ⟨0, 0⟩).n) ∧
      (∀ x : ℕ, r - 1 ≤ (x : ℤ) → (x : ℤ) < 2 * (r - 1) →
        (w.getD x ⟨0, 0⟩).t = 0.5 + (w.getD (x - (r - 1).toNat) ⟨0, 0⟩).t ∧
        (w.getD x ⟨0, 0⟩).n = (r - 1) - (w.getD (x - (r - 1).toNat) ⟨0, 0⟩).n) := by
  intro w hw
  have hw' : w = asinTable r := by
    unfold asin_v7 at hw
    rw [if_neg (by omega)] at hw
    exact (Option.some_injective _ hw).symm
  subst hw'
  constructor
  · intro x hx1 hx2
    have hc : ((((r - 1) - (x : ℤ) - 1).toNat : ℕ) : ℤ) = (r - 1) - x - 1 := by omega
    rw [asinTable_getD_lo r hr x hx2, asinHalf_getD_hi r hr x hx1 hx2,
      asinTable_getD_lo r hr _ (by omega), asinHalf_getD_lo r hr _ (by omega), hc]
    exact ⟨rfl, rfl⟩
  · intro x hx1 hx2
    rw [asinTable_getD_hi r hr x hx1 hx2, asinTable_getD_lo r hr _ (by omega)]
    exact ⟨rfl, rfl⟩

/-- Witness for C8 at resolution 4. -/
theorem C8_reflections_witness :
    (2 : ℤ) ≤ 4 ∧
    (∀ w, asin_v7 4 = some w →
      (∀ x : ℕ, (4:ℤ) / 2 ≤ (x : ℤ) → (x : ℤ) < (4:ℤ) - 1 →
        (w.getD x ⟨0, 0⟩).t = 0.5 - (w.getD (((4:ℤ) - 1) - (x : ℤ) - 1).toNat ⟨0, 0⟩).t ∧
        (w.getD x ⟨0, 0⟩).n = (w.getD (((4:ℤ) - 1) - (x : ℤ) - 1).toNat ⟨0, 0⟩).n) ∧
      (∀ x : ℕ, (4:ℤ) - 1 ≤ (x : ℤ) → (x : ℤ) < 2 * ((4:ℤ) - 1) →
        (w.getD x ⟨0, 0⟩).t = 0.5 + (w.getD (x - ((4:ℤ) - 1).toNat) ⟨0, 0⟩).t ∧
        (w.getD x ⟨0, 0⟩).n = ((4:ℤ) - 1) - (w.getD (x - ((4:ℤ) - 1).toNat) ⟨0, 0⟩).n)) :=
  ⟨by norm_num, C8_reflections 4 (by norm_num)⟩


theorem pi2_inv_pos : 0 < pi2_inv := by
  unfold pi2_inv
  positivity

theorem pi_mul_pi2_inv : Real.pi * pi2_inv = 1 / 2 := by
  rw [pi2_inv_eq, mul_one_div, div_eq_iff (by positivity : (2:ℝ) * Real.pi ≠ 0)]
  ring

theorem half_pi_mul_pi2_inv : Real.pi / 2 * pi2_inv = 1 / 4 := by
  rw [pi2_inv_eq, mul_one_div, div_eq_iff (by positivity : (2:ℝ) * Real.pi ≠ 0)]
  ring

theorem arccos_antitone {x y : ℝ} (h : x ≤ y) : Real.arccos y ≤ Real.arccos x := by
  rw [Real.arccos_eq_pi_div_two_sub_arcsin, Real.arccos_eq_pi_div_two_sub_arcsin]
  have := Real.monotone_arcsin h
  linarith

theorem acPhase_mono (r : ℤ) (hr : 2 ≤ r) {y z : ℤ} (h1 : y ≤ z) :
    acPhase r y ≤ acPhase r z := by
  unfold acPhase
  have hp : (0:ℝ) < ((r - 1 : ℤ) : ℝ) := by exact_mod_cast (show (0:ℤ) < r - 1 by omega)
  have hs : (0:ℝ) ≤ 2 / ((r - 1 : ℤ) : ℝ) := by positivity
  have hyz : (y : ℝ) ≤ (z : ℝ) := by exact_mod_cast h1
  have harg : 1 - (z : ℝ) * (2 / ((r - 1 : ℤ) : ℝ)) ≤
      1 - (y : ℝ) * (2 / ((r - 1 : ℤ) : ℝ)) := by nlinarith
  exact mul_le_mul_of_nonneg_right (arccos_antitone harg) pi2_inv_pos.le

theorem acPhase_le_half (r y : ℤ) : acPhase r y ≤ 1 / 2 := by
  unfold acPhase
  have h := Real.arccos_le_pi (1 - (y : ℝ) * (2 / ((r - 1 : ℤ) : ℝ)))
  have h2 := mul_le_mul_of_nonneg_right h pi2_inv_pos.le
  linarith [pi_mul_pi2_inv]

theorem acPhase_peak (r : ℤ) (hr : 2 ≤ r) : acPhase r (r - 1) = 1 / 2 := by
  unfold acPhase
  have hp : ((r - 1 : ℤ) : ℝ) ≠ 0 := by
    exact_mod_cast (show (r - 1 : ℤ) ≠ 0 by omega)
  have hm : ((r - 1 : ℤ) : ℝ) * (2 / ((r - 1 : ℤ) : ℝ)) = 2 := by
    rw [mul_comm]
    exact div_mul_cancel₀ 2 hp
  rw [show (1:ℝ) - ((r - 1 : ℤ) : ℝ) * (2 / ((r - 1 : ℤ) : ℝ)) = -1 by rw [hm]; norm_num,
    Real.arccos_neg_one, pi_mul_pi2_inv]

theorem asPhase_mono (r : ℤ) (hr : 2 ≤ r) {y z : ℤ} (h1 : y ≤ z) :
    asPhase r y ≤ asPhase r z := by
  unfold asPhase
  have hp : (0:ℝ) < ((r - 1 : ℤ) : ℝ) := by exact_mod_cast (show (0:ℤ) < r - 1 by omega)
  have hs : (0:ℝ) ≤ 2 / ((r - 1 : ℤ) : ℝ) := by positivity
  have hyz : (y : ℝ) ≤ (z : ℝ) := by exact_mod_cast h1
  have harg : (y : ℝ) * (2 / ((r - 1 : ℤ) : ℝ)) - 1 ≤
      (z : ℝ) * (2 / ((r - 1 : ℤ) : ℝ)) - 1 := by nlinarith
  exact mul_le_mul_of_nonneg_right (Real.monotone_arcsin harg) pi2_inv_pos.le

theorem asPhase_le_quarter (r z : ℤ) : asPhase r z ≤ 1 / 4 := by
  unfold asPhase
  have h := Real.arcsin_le_pi_div_two ((z : ℝ) * (2 / ((r - 1 : ℤ) : ℝ)) - 1)
  have h2 := mul_le_mul_of_nonneg_right h pi2_inv_pos.le
  linarith [half_pi_mul_pi2_inv]

theorem asPhase_half_nonneg (r : ℤ) (hr : 2 ≤ r) : 0 ≤ asPhase r (r / 2) := by
  unfold asPhase
  apply mul_nonneg _ pi2_inv_pos.le
  apply Real.arcsin_nonneg.mpr
  have h2 : (r - 1 : ℤ) ≤ 2 * (r / 2) := by omega
  have hp : (0:ℝ) < ((r - 1 : ℤ) : ℝ) := by exact_mod_cast (show (0:ℤ) < r - 1 by omega)
  have hc : ((r - 1 : ℤ) : ℝ) ≤ 2 * ((r / 2 : ℤ) : ℝ) := by exact_mod_cast h2
  have he : ((r / 2 : ℤ) : ℝ) * (2 / ((r - 1 : ℤ) : ℝ)) =
      2 * ((r / 2 : ℤ) : ℝ) / ((r - 1 : ℤ) : ℝ) := by ring
  rw [sub_nonneg, he, le_div_iff₀ hp]
  linarith

theorem acosTable_adjacent (r : ℤ) (hr : 2 ≤ r) (x : ℕ)
    (hx : (x : ℤ) + 1 < 2 * (r - 1)) :
    ((acosTable r).getD x ⟨0, 0⟩).t ≤ ((acosTable r).getD (x + 1) ⟨0, 0⟩).t := by
  rcases le_or_lt ((x : ℤ) + 1) (r - 1) with h | h
  · rw [acosTable_getD_lo r hr x (by omega),
      acosTable_getD_lo r hr (x + 1) (by push_cast; omega)]
    exact acPhase_mono r hr (by push_cast; omega)
  · rcases le_or_lt ((x : ℤ)) (r - 1) with h2 | h2
    · have hxp : ((x : ℕ) : ℤ) = r - 1 := by omega
      rw [acosTable_getD_lo r hr x (by omega),
        acosTable_getD_hi r hr (x + 1) (by push_cast; omega) (by push_cast; omega)]
      have e1 : acPhase r (x : ℤ) = 1 / 2 := by rw [hxp]; exact acPhase_peak r hr
      have e2 := acPhase_le_half r (2 * (r - 1) - ((x + 1 : ℕ) : ℤ))
      dsimp only
      linarith
    · rw [acosTable_getD_hi r hr x h2 (by omega),
        acosTable_getD_hi r hr (x + 1) (by push_cast; omega) (by push_cast; omega)]
      have := acPhase_mono r hr
        (show 2 * (r - 1) - ((x + 1 : ℕ) : ℤ) ≤ 2 * (r - 1) - (x : ℤ) by push_cast; omega)
      dsimp only
      linarith

theorem acosTableGS_adjacent (r : ℤ) (hr : 2 ≤ r) (x : ℕ)
    (hx : (x : ℤ) + 1 ≤ 2 * (r - 1)) :
    ((acosTableGS r).getD x ⟨0, 0⟩).t ≤ ((acosTableGS r).getD (x + 1) ⟨0, 0⟩).t := by
  rcases le_or_lt ((x : ℤ) + 1) (r - 1) with h | h
  · rw [acosTableGS_getD_lo r hr x (by omega),
      acosTableGS_getD_lo r hr (x + 1) (by push_cast; omega)]
    exact acPhase_mono r hr (by push_cast; omega)
  · rcases le_or_lt ((x : ℤ)) (r - 1) with h2 | h2
    · have hxp : ((x : ℕ) : ℤ) = r - 1 := by omega
      rw [acosTableGS_getD_lo r hr x (by omega),
        acosTableGS_getD_hi r hr (x + 1) (by push_cast; omega) (by push_cast; omega)]
      have e1 : acPhase r (x : ℤ) = 1 / 2 := by rw [hxp]; exact acPhase_peak r hr
      have e2 := acPhase_le_half r (2 * (r - 1) - ((x + 1 : ℕ) : ℤ))
      dsimp only
      linarith
    · rw [acosTableGS_getD_hi r hr x h2 (by omega),
        acosTableGS_getD_hi r hr (x + 1) (by push_cast; omega) (by push_cast; omega)]
      have := acPhase_mono r hr
        (show 2 * (r - 1) - ((x + 1 : ℕ) : ℤ) ≤ 2 * (r - 1) - (x : ℤ) by push_cast; omega)
      dsimp only
      linarith

theorem asinHalf_adjacent (r : ℤ) (hr : 2 ≤ r) (x : ℕ)
    (hx : (x : ℤ) + 1 < r - 1) :
    ((asinHalf r).getD x ⟨0, 0⟩).t ≤ ((asinHalf r).getD (x + 1) ⟨0, 0⟩).t := by
  rcases lt_or_le ((x : ℤ) + 1) (r / 2) with h | h
  · rw [asinHalf_getD_lo r hr x (by omega),
      asinHalf_getD_lo r hr (x + 1) (by push_cast; omega)]
    exact asPhase_mono r hr (by push_cast; omega)
  · rcases lt_or_le ((x : ℤ)) (r / 2) with h2 | h2
    · rw [asinHalf_getD_lo r hr x h2,
        asinHalf_getD_hi r hr (x + 1) (by push_cast; omega) (by push_cast; omega)]
      have q1 := asPhase_le_quarter r (r / 2 + (x : ℤ))
      have q2 := asPhase_le_quarter r (r / 2 + ((r - 1) - ((x + 1 : ℕ) : ℤ) - 1))
      dsimp only
      have h05 : (0.5 : ℝ) = 1 / 2 := by norm_num
      rw [h05]
      linarith
    · rw [asinHalf_getD_hi r hr x h2 (by omega),
        asinHalf_getD_hi r hr (x + 1) (by push_cast; omega) (by push_cast; omega)]
      have := asPhase_mono r hr
        (show r / 2 + ((r - 1) - ((x + 1 : ℕ) : ℤ) - 1) ≤
          r / 2 + ((r - 1) - (x : ℤ) - 1) by push_cast; omega)
      dsimp only
      linarith

theorem asinTable_adjacent (r : ℤ) (hr : 2 ≤ r) (x : ℕ)
    (hx : (x : ℤ) + 1 < 2 * (r - 1)) :
    ((asinTable r).getD x ⟨0, 0⟩).t ≤ ((asinTable r).getD (x + 1) ⟨0, 0⟩).t := by
  rcases lt_or_le ((x : ℤ) + 1) (r - 1) with h | h
  · rw [asinTable_getD_lo r hr x (by omega),
      asinTable_getD_lo r hr (x + 1) (by push_cast; omega)]
    exact asinHalf_adjacent r hr x h
  · rcases lt_or_le ((x : ℤ)) (r - 1) with h2 | h2
    · rw [asinTable_getD_lo r hr x h2,
        asinTable_getD_hi r hr (x + 1) (by push_cast; omega) (by push_cast; omega)]
      have hidx : (x + 1) - (r - 1).toNat = 0 := by omega
      rw [hidx, asinHalf_getD_lo r hr 0 (by push_cast; omega)]
      rcases lt_or_le ((x : ℤ)) (r / 2) with h3 | h3
      · rw [asinHalf_getD_lo r hr x h3]
        have q1 := asPhase_le_quarter r (r / 2 + (x : ℤ))
        have q2 := asPhase_half_nonneg r hr
        dsimp only
        have h05 : (0.5 : ℝ) = 1 / 2 := by norm_num
        rw [h05]
        simp only [Nat.cast_zero, add_zero]
        linarith
      · rw [asinHalf_getD_hi r hr x h3 h2]
        have hx0 : (r - 1) - (x : ℤ) - 1 = 0 := by omega
        rw [hx0]
        have q2 := asPhase_half_nonneg r hr
        dsimp only
        simp only [Nat.cast_zero, add_zero]
        linarith
    · rw [asinTable_getD_hi r hr x h2 (by omega),
        asinTable_getD_hi r hr (x + 1) (by push_cast; omega) (by push_cast; omega)]
      have hidx : (x + 1) - (r - 1).toNat = (x - (r - 1).toNat) + 1 := by omega
      rw [hidx]
      have := asinHalf_adjacent r hr (x - (r - 1).toNat) (by omega)
      dsimp only
      linarith

/-- C4: every table built by acos_v8, asin_v7 or the tuple-based acos
with resolution at least 2 has non-decreasing phases at every adjacent
pair of indices. -/
theorem C4_monotone (r : ℤ) (hr : 2 ≤ r) :
    (∀ w, acos_v8 r = some w → ∀ x : ℕ, x + 1 < w.length →
      (w.getD x ⟨0, 0⟩).t ≤ (w.getD (x + 1) ⟨0, 0⟩).t) ∧
    (∀ w, asin_v7 r = some w → ∀ x : ℕ, x + 1 < w.length →
      (w.getD x ⟨0, 0⟩).t ≤ (w.getD (x + 1) ⟨0, 0⟩).t) ∧
    (∀ w, acos r = some w → ∀ x : ℕ, x + 1 < w.length →
      (w.getD x ⟨0, 0⟩).t ≤ (w.getD (x + 1) ⟨0, 0⟩).t) := by
  refine ⟨fun w hw x hx => ?_, fun w hw x hx => ?_, fun w hw x hx => ?_⟩
  · have hw' : w = acosTable r := by
      unfold acos_v8 at hw
      rw [if_neg (by omega)] at hw
      exact (Option.some_injective _ hw).symm
    subst hw'
    rw [acosTable_length r hr] at hx
    exact acosTable_adjacent r hr x (by omega)
  · have hw' : w = asinTable r := by
      unfold asin_v7 at hw
      rw [if_neg (by omega)] at hw
      exact (Option.some_injective _ hw).symm
    subst hw'
    rw [asinTable_length r hr] at hx
    exact asinTable_adjacent r hr x (by omega)
  · have hw' : w = acosTableGS r := by
      unfold acos at hw
      rw [if_neg (by omega)] at hw
      exact (Option.some_injective _ hw).symm
    subst hw'
    rw [acosTableGS_length r hr] at hx
    exact acosTableGS_adjacent r hr x (by omega)

/-- Witness for C4 at resolution 2. -/
theorem C4_monotone_witness :
    (2 : ℤ) ≤ 2 ∧
    ((∀ w, acos_v8 2 = some w → ∀ x : ℕ, x + 1 < w.length →
        (w.getD x ⟨0, 0⟩).t ≤ (w.getD (x + 1) ⟨0, 0⟩).t) ∧
      (∀ w, asin_v7 2 = some w → ∀ x : ℕ, x + 1 < w.length →
        (w.getD x ⟨0, 0⟩).t ≤ (w.getD (x + 1) ⟨0, 0⟩).t) ∧
      (∀ w, acos 2 = some w → ∀ x : ℕ, x + 1 < w.length →
        (w.getD x ⟨0, 0⟩).t ≤ (w.getD (x + 1) ⟨0, 0⟩).t)) :=
  ⟨by norm_num, C4_monotone 2 (by norm_num)⟩

end SineGen
